import Mathlib

/-!
Verification of the thread-enumeration / backtrace-parsing driver for the
Intel(R) Distribution for GDB* (`scripts/oneapi_gdb.py` of LLNL/STAT).

The Python source is shallowly embedded below: strings are modelled as
`String` / `List Char`, the regular expressions of the source are embedded as
specialised executable matchers with Python `re` backtracking semantics
(leftmost match, greedy quantifiers, ordered alternation), `str.replace` as a
leftmost non-overlapping replacement pass, and the driver method
`get_thread_list` as a pure function of its environment inputs and of a
Command Channel modelled as a function from a command string to response lines.
-/

namespace OneAPIGdb

/-- ASCII model of Python whitespace (`str.strip`, regex `\s`). -/
def isSpaceP (c : Char) : Bool :=
  c = ' ' || c = '\t' || c = '\n' || c = '\r' || c = '\x0b' || c = '\x0c'

/-- ASCII model of regex `\d` / `int()` digits. -/
def isDigitP (c : Char) : Bool := '0' ≤ c && c ≤ '9'

/-- Python `str.strip()` on the underlying character list. -/
def stripChars (cs : List Char) : List Char :=
  ((cs.dropWhile isSpaceP).reverse.dropWhile isSpaceP).reverse

/-- Python `str.strip()`. -/
def pyStrip (s : String) : String := ⟨stripChars s.data⟩

/-- Python `str.lower()` (ASCII model). -/
def lowerChars (cs : List Char) : List Char := cs.map Char.toLower

/-- Fuel-measured pass of Python `str.replace(pat, rep)`: leftmost,
non-overlapping, scanning resumes after the replacement text.  Fuel
`s.length` always suffices because every step consumes at least one
character of a nonempty pattern's haystack. -/
def replaceAllF (rep pat : List Char) : Nat → List Char → List Char
  | 0, s => s
  | n + 1, s =>
    if pat.isPrefixOf s then rep ++ replaceAllF rep pat n (s.drop pat.length)
    else
      match s with
      | [] => []
      | c :: cs => c :: replaceAllF rep pat n cs

/-- Python `s.replace(pat, rep)`.  The empty-pattern case never arises from
the embedded call sites (recorded template spans have length ≥ 3 and
call-signature matches length ≥ 3); it is mapped to the identity. -/
def replaceAll (s pat rep : List Char) : List Char :=
  if pat = [] then s else replaceAllF rep pat s.length s

/-- The `<` / `>` nesting scan of `clean_cpp_template_brackets_and_call_signature`:
a faithful rendering of the Python `for idx, char in enumerate(string)` loop
with state `(found, begin, counter)`, returning the recorded
`(begin, end)` index pairs of top-level balanced spans in encounter order. -/
def scanTb : List Char → Nat → Bool → Nat → Nat → List (Nat × Nat)
  | [], _, _, _, _ => []
  | c :: rest, idx, found, bg, cnt =>
    if c = '<' ∧ found = false then scanTb rest (idx + 1) true idx 1
    else if c = '<' ∧ found = true then scanTb rest (idx + 1) true bg (cnt + 1)
    else if c = '>' ∧ found = true ∧ 1 < cnt then scanTb rest (idx + 1) true bg (cnt - 1)
    else if c = '>' ∧ found = true ∧ cnt = 1 then (bg, idx) :: scanTb rest (idx + 1) false bg (cnt - 1)
    else scanTb rest (idx + 1) found bg cnt

/-- The `sub_strings` list of the Python function: the text `string[begin:end+1]`
of each recorded span, in encounter order. -/
def templateSpans (cs : List Char) : List (List Char) :=
  (scanTb cs 0 false 0 0).map (fun p => (cs.drop p.1).take (p.2 + 1 - p.1))

/-- The template-collapsing phase: every recorded span is replaced (as text,
all occurrences, via `str.replace`) by the marker `<...>`. -/
def tmplApply (cs : List Char) : List Char :=
  (templateSpans cs).foldl (fun acc sub => replaceAll acc sub "<...>".data) cs

/-- Body of one attempt of `\([^()]+\)`: given the characters after a leading
`(`, the greedy non-paren run must be nonempty and be followed by `)`;
returns the run and the remainder.  (Backtracking inside `[^()]+` cannot help:
a shorter run leaves a non-paren next character, which fails `\)`.) -/
def sigGroup (rest : List Char) : Option (List Char × List Char) :=
  let mid := rest.takeWhile (fun c => !(c = '(' || c = ')'))
  if mid.isEmpty then none
  else
    match rest.drop mid.length with
    | ')' :: r2 => some (mid, r2)
    | _ => none

/-- `[^()]*$` lookahead: the remainder contains no parenthesis (with `$`
allowed before a final newline, `[^()]*` absorbs every non-paren character,
so the lookahead is exactly paren-freeness of the remainder). -/
def parenFree (cs : List Char) : Bool := cs.all (fun c => !(c = '(' || c = ')'))

/-- `re.findall(r"\([^()]+\)(?=[^()]*$)", s)`: scan left to right; a failed
attempt advances one character, a successful match is collected and scanning
resumes after it (non-overlapping).  Fuel `cs.length` suffices (every step
consumes at least one character). -/
def sigScanF : Nat → List Char → List (List Char)
  | 0, _ => []
  | n + 1, cs =>
    match cs with
    | [] => []
    | c :: rest =>
      if c = '(' then
        match sigGroup rest with
        | some (mid, r2) =>
          if parenFree r2 then ('(' :: mid ++ [')']) :: sigScanF n r2
          else sigScanF n rest
        | none => sigScanF n rest
      else sigScanF n rest

/-- The `match = ptrn.findall(string)` list of the Python function. -/
def sigMatches (cs : List Char) : List (List Char) := sigScanF cs.length cs

/-- The call-signature phase: if the findall list is nonempty, its last
element is replaced (all occurrences, via `str.replace`) by `(...)`. -/
def sigApply (cs : List Char) : List Char :=
  match (sigMatches cs).getLast? with
  | none => cs
  | some m => replaceAll cs m "(...)".data

/-- `clean_cpp_template_brackets_and_call_signature` from `oneapi_gdb.py`:
template collapsing followed by call-signature collapsing. -/
def clean_cpp_template_brackets_and_call_signature (s : String) : String :=
  ⟨sigApply (tmplApply s.data)⟩

/-!
The frame-shape regular expression of `parse_frameinfo_from_backtrace`:

  `^#\d+\s+(?:0x\S+)*(?: in )*(.*)\s\(.*\)\s(?:at|from)\s([^:]+)(?::)?(\d+)?$`

It is embedded as a specialised matcher with Python `re` semantics: anchored
at the start, depth-first backtracking with greedy quantifiers (longest
candidate first), ordered alternation (`at` before `from`), `.` excluding
`'\n'`, and `$` accepting the end of the string or a position before a final
`'\n'`.  The capture groups are the function designator, the source, and the
optional line-number digits.
-/

/-- The three capture groups of the frame-shape pattern. -/
structure FrameGroups where
  g1 : List Char
  g2 : List Char
  g3 : Option (List Char)
deriving DecidableEq, Repr

/-- Try `f i` for `i = hi, hi - 1, ..., 0` (greedy order for a `*`
quantifier over a single-character class). -/
def descFrom0 {α : Type} (f : Nat → Option α) : Nat → Option α
  | 0 => f 0
  | i + 1 => (f (i + 1)).orElse (fun _ => descFrom0 f i)

/-- Try `f i` for `i = hi, hi - 1, ..., 1` (greedy order for a `+`
quantifier over a single-character class). -/
def descFrom1 {α : Type} (f : Nat → Option α) : Nat → Option α
  | 0 => none
  | i + 1 => (f (i + 1)).orElse (fun _ => descFrom1 f i)

/-- `$`: end of string, or just before a terminating newline. -/
def atEnd : List Char → Bool
  | [] => true
  | ['\n'] => true
  | _ => false

/-- `(\d+)?$` — greedy optional digit group (longest digit prefix first,
then non-participation), then the anchor. -/
def fmDigits (g1 g2 : List Char) (cs : List Char) : Option FrameGroups :=
  let d := (cs.takeWhile isDigitP).length
  (descFrom1 (fun j => if atEnd (cs.drop j) then some ⟨g1, g2, some (cs.take j)⟩ else none) d).orElse
    (fun _ => if atEnd cs then some ⟨g1, g2, none⟩ else none)

/-- `(?::)?` — greedy optional literal colon. -/
def fmColon (g1 g2 : List Char) (cs : List Char) : Option FrameGroups :=
  (match cs with
   | ':' :: rest => fmDigits g1 g2 rest
   | _ => none).orElse
    (fun _ => fmDigits g1 g2 cs)

/-- `([^:]+)` — greedy capture of one or more non-colon characters. -/
def fmSource (g1 : List Char) (cs : List Char) : Option FrameGroups :=
  let m := (cs.takeWhile (fun c => c ≠ ':')).length
  descFrom1 (fun i => fmColon g1 (cs.take i) (cs.drop i)) m

/-- `\s` after the `at`/`from` keyword. -/
def fmSpaceAfterKw (g1 : List Char) : List Char → Option FrameGroups
  | c :: rest => if isSpaceP c then fmSource g1 rest else none
  | [] => none

/-- `(?:at|from)` — ordered alternation. -/
def fmKeyword (g1 : List Char) (cs : List Char) : Option FrameGroups :=
  (match cs with
   | 'a' :: 't' :: rest => fmSpaceAfterKw g1 rest
   | _ => none).orElse
    (fun _ =>
      match cs with
      | 'f' :: 'r' :: 'o' :: 'm' :: rest => fmSpaceAfterKw g1 rest
      | _ => none)

/-- `\s` after the closing parenthesis. -/
def fmSpaceAfterParen (g1 : List Char) : List Char → Option FrameGroups
  | c :: rest => if isSpaceP c then fmKeyword g1 rest else none
  | [] => none

/-- `\)` closing the argument list. -/
def fmCloseParen (g1 : List Char) : List Char → Option FrameGroups
  | ')' :: rest => fmSpaceAfterParen g1 rest
  | _ => none

/-- `.*\)` — greedy dot-star inside the argument list. -/
def fmArgsDots (g1 : List Char) (cs : List Char) : Option FrameGroups :=
  let m := (cs.takeWhile (fun c => c ≠ '\n')).length
  descFrom0 (fun i => fmCloseParen g1 (cs.drop i)) m

/-- `\(` opening the argument list. -/
def fmOpenParen (g1 : List Char) : List Char → Option FrameGroups
  | '(' :: rest => fmArgsDots g1 rest
  | _ => none

/-- `\s` between the function designator and the argument list. -/
def fmSpaceAfterG1 (g1 : List Char) : List Char → Option FrameGroups
  | c :: rest => if isSpaceP c then fmOpenParen g1 rest else none
  | [] => none

/-- `(.*)` — greedy capture of the function designator. -/
def fmFunc (cs : List Char) : Option FrameGroups :=
  let m := (cs.takeWhile (fun c => c ≠ '\n')).length
  descFrom0 (fun i => fmSpaceAfterG1 (cs.take i) (cs.drop i)) m

/-- `(?: in )*` — greedy star over the literal `" in "`; fuel bounds the
number of repetitions (each consumes four characters, so `cs.length`
suffices), exhaustion falls through to the remainder of the pattern. -/
def fmInStar : Nat → List Char → Option FrameGroups
  | 0, cs => fmFunc cs
  | n + 1, cs =>
    (match cs with
     | ' ' :: 'i' :: 'n' :: ' ' :: rest => fmInStar n rest
     | _ => none).orElse
      (fun _ => fmFunc cs)

/-- `(?:0x\S+)*` — greedy star whose repetition is `0x` followed by a greedy
nonempty run of non-whitespace; fuel as in `fmInStar`. -/
def fmHexStar : Nat → List Char → Option FrameGroups
  | 0, cs => fmInStar cs.length cs
  | n + 1, cs =>
    (match cs with
     | '0' :: 'x' :: rest =>
       let r := (rest.takeWhile (fun c => !isSpaceP c)).length
       descFrom1 (fun j => fmHexStar n (rest.drop j)) r
     | _ => none).orElse
      (fun _ => fmInStar cs.length cs)

/-- `\s+` after the frame index. -/
def fmSpaces (cs : List Char) : Option FrameGroups :=
  let m := (cs.takeWhile isSpaceP).length
  descFrom1 (fun k => fmHexStar (cs.drop k).length (cs.drop k)) m

/-- `^#\d+` then the rest of the pattern: the anchored match of the whole
frame-shape regular expression (`frame_fromat.match` of the source). -/
def frameMatch (s : String) : Option FrameGroups :=
  match s.data with
  | '#' :: rest =>
    let d := (rest.takeWhile isDigitP).length
    descFrom1 (fun i => fmSpaces (rest.drop i)) d
  | _ => none

/-- Numeric value of a digit string (`int()` on the captured `\d+`). -/
def digitsVal (cs : List Char) : Nat :=
  cs.foldl (fun acc c => acc * 10 + (c.toNat - '0'.toNat)) 0

/-- The record returned by `parse_frameinfo_from_backtrace`. -/
structure FrameRec where
  function : String
  source : String
  linenum : Nat
  error : Bool
deriving DecidableEq, Repr

/-- `parse_frameinfo_from_backtrace` from `oneapi_gdb.py`: on a match the
three groups are extracted (`linenum` defaulting to `0` when the digit group
is absent), otherwise the placeholder values are kept with `error = true`;
in both cases the function designator passes through
`clean_cpp_template_brackets_and_call_signature`.  Total: every input yields
a record. -/
def parse_frameinfo_from_backtrace (s : String) : FrameRec :=
  match frameMatch s with
  | none =>
    { function := clean_cpp_template_brackets_and_call_signature "Unknown"
      source := "??"
      linenum := 0
      error := true }
  | some g =>
    { function := clean_cpp_template_brackets_and_call_signature ⟨g.g1⟩
      source := ⟨g.g2⟩
      linenum := match g.g3 with | none => 0 | some ds => digitsVal ds
      error := false }

/-!
`OneAPIGdbDriver.get_thread_list`: validation of the `STAT_INTELGT_EXPR_FILTER`
environment value, the probe round-trip, command construction, and the
`STAT_INTELGT_MAX_THREADS` truncation.  The Command Channel
(`self.communicate`) is modelled as a function from a command string to the
returned response lines.
-/

/-- Case-insensitive prefix test (regex `re.IGNORECASE` over ASCII). -/
def ciPrefix : List Char → List Char → Bool
  | [], _ => true
  | _ :: _, [] => false
  | p :: ps, c :: cs => p.toLower = c.toLower && ciPrefix ps cs

/-- Case-insensitive substring search (`re.search` of a literal pattern). -/
def ciSearch (pat : List Char) : List Char → Bool
  | [] => ciPrefix pat []
  | c :: rest => ciPrefix pat (c :: rest) || ciSearch pat rest

/-- The literal tail of the first alternative of the benign-error pattern.
In the source the pattern is the raw string
`r"(No symbol.*in current context) \` followed (inside the same literal, a
raw string keeps a backslash-newline) by a newline and the 37 spaces of the
continuation line's indentation, then `|(cannot subscript something of type)`.
The regex `\` + newline matches a literal newline, so alternative one is
`No symbol` · `.*` · `in current context` · `' '` · `'\n'` · 37 spaces. -/
def benignTail : List Char :=
  "in current context \n".data ++ List.replicate 37 ' '

/-- `.*` (non-newline, any length) followed by `benignTail`, anywhere from
the current position. -/
def benignP1After (cs : List Char) : Bool :=
  ciPrefix benignTail cs ||
    match cs with
    | [] => false
    | c :: rest => c ≠ '\n' && benignP1After rest

/-- Alternative one matching at the current position. -/
def benignP1At (cs : List Char) : Bool :=
  ciPrefix "No symbol".data cs && benignP1After (cs.drop 9)

/-- `re.search` of alternative one: try every start position. -/
def benignP1Search : List Char → Bool
  | [] => benignP1At []
  | c :: rest => benignP1At (c :: rest) || benignP1Search rest

/-- `re.search(r"(No symbol.*in current context) \` `…` `|(cannot subscript
something of type)", line_str, re.IGNORECASE)`. -/
def benignRegexSearch (cs : List Char) : Bool :=
  benignP1Search cs || ciSearch "cannot subscript something of type".data cs

/-- One iteration of the validation-response loop: the stripped line either
starts with `$` and contains `=` (successful evaluation), or the benign-error
pattern is found in it. -/
def lineSignalsValid (l : String) : Bool :=
  let t := stripChars l.data
  (match t with
   | '$' :: _ => t.contains '='
   | _ => false) || benignRegexSearch t

/-- The `is_valid` flag computed from the probe response
(`if validation_result:` plus the `for line in validation_result:` loop). -/
def validationAccepts (lines : List String) : Bool :=
  lines.any lineSignalsValid

/-- The deny list of the source ("Thread apply commmand may end up sending
commands like `shell rm *`"). -/
def danger_list : List String := ["shell", "call", "python", "source", "dump", "restore"]

/-- Occurrence of `pat` as a contiguous substring (Python `in`). -/
def subOccurs (pat : List Char) : List Char → Bool
  | [] => pat.isPrefixOf []
  | c :: rest => pat.isPrefixOf (c :: rest) || subOccurs pat rest

/-- `any(keyword in filter_expr_str.lower() for keyword in danger_list)`. -/
def dangerHit (e : String) : Bool :=
  danger_list.any (fun k => subOccurs k.data (lowerChars e.data))

/-- `'\n' in filter_expr_str or '\r' in filter_expr_str`. -/
def containsNL (e : String) : Bool :=
  e.data.contains '\n' || e.data.contains '\r'

/-- The unfiltered enumeration command. -/
def defaultEnumCmd : String :=
  "thread apply all -q -c printf \"%d.%d\\n\", $_inferior, $_thread"

/-- The Stage-2 probe command `print {filter_expr_str}`. -/
def validateCmd (e : String) : String := "print " ++ e

/-- The guarded (filtered) enumeration command embedding the validated
expression. -/
def guardedEnumCmd (e : String) : String :=
  "thread apply all -q -s eval \"printf %s, $_inferior, $_thread\", (" ++ e
    ++ " ? \"\\\"%d.%d\\n\\\"\" : \"\\\"\\\"\")"

/-- Classification of the filter-expression handling: which branch of the
validation logic ran (each branch of the source logs its own diagnostic). -/
inductive FilterOutcome where
  | noFilter
  | rejectedNewline
  | rejectedDanger
  | probeInvalid
  | accepted
deriving DecidableEq, Repr

/-- Classification of the `STAT_INTELGT_MAX_THREADS` handling (the two
`ignored…` outcomes are the warning branches of the source). -/
inductive MaxOutcome where
  | notGiven
  | truncated (n : Nat)
  | ignoredNonPositive
  | ignoredUnparsable
deriving DecidableEq, Repr

/-- Observable result of `get_thread_list`: the probe command sent through
the Command Channel (if any), the enumeration command used, the branch
classifications, and the returned thread-id list. -/
structure GtlResult where
  probeSent : Option String
  cmd : String
  filterOutcome : FilterOutcome
  maxOutcome : MaxOutcome
  tids : List String
deriving DecidableEq, Repr

/-- The filter-validation part of `get_thread_list`: Python truthiness of
the environment value (`if filter_expr_str and filter_expr_str.strip():`),
the Stage-1 structural checks (embedded newline / carriage return, then the
deny list on the lowercased text), and the Stage-2 probe. -/
def gtlStage1 (filterEnv : Option String) (chan : String → List String) :
    Option String × String × FilterOutcome :=
  match filterEnv with
  | none => (none, defaultEnumCmd, .noFilter)
  | some s =>
    if s = "" then (none, defaultEnumCmd, .noFilter)
    else if pyStrip s = "" then (none, defaultEnumCmd, .noFilter)
    else
      let e := pyStrip s
      if containsNL e then (none, defaultEnumCmd, .rejectedNewline)
      else if dangerHit e then (none, defaultEnumCmd, .rejectedDanger)
      else
        let vc := validateCmd e
        if validationAccepts (chan vc) then (some vc, guardedEnumCmd e, .accepted)
        else (some vc, defaultEnumCmd, .probeInvalid)

/-- Python `int()` digit part: digits with single separating underscores. -/
def pyDigitTail : List Char → Bool
  | [] => true
  | ['_'] => false
  | '_' :: c :: rest => isDigitP c && pyDigitTail rest
  | c :: rest => isDigitP c && pyDigitTail rest

/-- Nonempty digit part starting with a digit. -/
def pyDigitsOk : List Char → Bool
  | [] => false
  | c :: rest => isDigitP c && pyDigitTail rest

/-- Python `int(str)`: surrounding whitespace stripped, optional sign,
then a digit part (underscore group separators allowed); `none` models the
`ValueError` branch. -/
def pyIntParse (s : String) : Option Int :=
  let t := stripChars s.data
  let core : Int × List Char :=
    match t with
    | '+' :: r => (1, r)
    | '-' :: r => (-1, r)
    | r => (1, r)
  if pyDigitsOk core.2 then
    some (core.1 * (digitsVal (core.2.filter (fun c => c ≠ '_')) : Int))
  else none

/-- `OneAPIGdbDriver.get_thread_list` as a function of the two environment
values and the Command Channel.  After validation the enumeration command is
sent; an empty response returns `[]` before the max-threads handling; a
present, non-blank `STAT_INTELGT_MAX_THREADS` is parsed with `int()`,
ignored with a warning when unparsable or non-positive, and otherwise the
prefix of the thread list is kept. -/
def get_thread_list (filterEnv maxEnv : Option String) (chan : String → List String) :
    GtlResult :=
  match gtlStage1 filterEnv chan with
  | (ps, cmd, fo) =>
    let tids0 := chan cmd
    if tids0 = [] then ⟨ps, cmd, fo, .notGiven, []⟩
    else
      match maxEnv with
      | none => ⟨ps, cmd, fo, .notGiven, tids0⟩
      | some m =>
        if m = "" then ⟨ps, cmd, fo, .notGiven, tids0⟩
        else if pyStrip m = "" then ⟨ps, cmd, fo, .notGiven, tids0⟩
        else
          match pyIntParse m with
          | none => ⟨ps, cmd, fo, .ignoredUnparsable, tids0⟩
          | some n =>
            if n ≤ 0 then ⟨ps, cmd, fo, .ignoredNonPositive, tids0⟩
            else ⟨ps, cmd, fo, .truncated n.toNat, tids0.take n.toNat⟩

/-!  `OneAPIGdbDriver.bt`. -/

/-- The backtrace command for one thread id. -/
def btCmd (tid : String) : String :=
  "with print frame-arguments none -- thread apply " ++ tid ++ " bt"

/-- The `for line_num, line in enumerate(lines):` loop of `bt`: `line[0]`
raises `IndexError` on an empty line (modelled as `none`); a line not
starting with `#` is skipped; a `#` line contributes the parsed record. -/
def btLoop : List String → Option (List FrameRec)
  | [] => some []
  | l :: ls =>
    match l.data with
    | [] => none
    | c :: _ =>
      if c = '#' then
        match btLoop ls with
        | none => none
        | some r => some (parse_frameinfo_from_backtrace l :: r)
      else btLoop ls

/-- `bt`'s processing of the Command Channel response: `lines = lines[2:]`
then the parsing loop. -/
def btFromLines (lines : List String) : Option (List FrameRec) :=
  btLoop (lines.drop 2)

/-- The `line[0] == '#'` test of `bt`, for nonempty lines. -/
def isHashLine (l : String) : Bool :=
  match l.data with
  | c :: _ => c == '#'
  | [] => false

/-- `OneAPIGdbDriver.bt` over a Command Channel. -/
def bt (tid : String) (chan : String → List String) : Option (List FrameRec) :=
  btFromLines (chan (btCmd tid))

/-!  SIMD lane expansion. -/

/-- Modelled from the spec: the repository's SIMD lane expansion
(`expand_simd_spec_mi`, exercised through `parse_thread_info_mi` by
`oneapi_gdb_test.py`) is code of this repository that is not among the
provided sources.  Spec §4.1: "Otherwise scan bit positions `0 .. width-1`
(low-to-high) of `mask`; a lane index is included iff its bit is set.  Bits
at or beyond `width` are ignored even if set." -/
def expand (width mask : Nat) : List Nat :=
  (List.range width).filter (fun i => mask.testBit i)

/-- Spec-side comparison definition: "the sorted ascending list of bit
positions set in `mask`" — every set bit position of `mask` is below `mask`
itself, so filtering `range mask` enumerates exactly the set bits, in
ascending order. -/
def setBitsAscending (mask : Nat) : List Nat :=
  (List.range mask).filter (fun i => mask.testBit i)

/-!  ## Theorems -/

/-- Helper: the parsing loop of `bt` is total on nonempty lines and keeps
exactly the `#`-lines, each parsed by `parse_frameinfo_from_backtrace`. -/
theorem btLoop_total (ls : List String) (h : ∀ l ∈ ls, l ≠ "") :
    btLoop ls = some ((ls.filter isHashLine).map parse_frameinfo_from_backtrace) := by
  induction ls with
  | nil => rfl
  | cons l ls ih =>
    have hl : l ≠ "" := h l (List.mem_cons_self _ _)
    have hd : l.data ≠ [] := fun hnil => hl (String.ext hnil)
    obtain ⟨c, cs, hcs⟩ := List.exists_cons_of_ne_nil hd
    have hrest : ∀ x ∈ ls, x ≠ "" := fun x hx => h x (List.mem_cons_of_mem _ hx)
    by_cases hc : c = '#'
    · have hhash : isHashLine l = true := by
        simp [isHashLine, hcs, hc]
      simp only [btLoop, hcs, if_pos hc, ih hrest,
        List.filter_cons_of_pos hhash, List.map_cons]
    · have hhash : ¬ isHashLine l = true := by
        simp [isHashLine, hcs, hc]
      simp only [btLoop, hcs, if_neg hc, ih hrest,
        List.filter_cons_of_neg hhash]

/-- C3 (counterexample): the claim quantifies over every response-line list,
"including lists containing empty lines"; on an empty line after the dropped
two-line prefix, `bt`'s `line[0]` indexing raises `IndexError` (modelled as
`none`), so the backtrace retrieval does abort instead of returning a list of
records. -/
theorem c3_empty_line_aborts_bt :
    btFromLines ["Thread 5 (bt):", "#0  f (x) at a.c:1", ""] = none := by decide

/-- C3 (amended): for every Command Channel response whose lines after the
first two are all nonempty, `bt` returns a list of frame records without
raising: lines not starting with `#` are skipped and every `#`-line
contributes exactly one parsed record (a malformed one yields the
placeholder/error record, by totality of `parse_frameinfo_from_backtrace`),
never aborting the whole backtrace retrieval. -/
theorem c3_bt_total_on_nonempty_lines (lines : List String)
    (h : ∀ l ∈ lines.drop 2, l ≠ "") :
    btFromLines lines =
      some (((lines.drop 2).filter isHashLine).map parse_frameinfo_from_backtrace) :=
  btLoop_total _ h

/-- C3 (witness): a concrete response with a malformed (but nonempty) line. -/
theorem c3_bt_total_on_nonempty_lines_witness :
    (∀ l ∈ (["h1", "h2", "#0 garbage", "not a frame"].drop 2), l ≠ "") ∧
    btFromLines ["h1", "h2", "#0 garbage", "not a frame"] =
      some (((["h1", "h2", "#0 garbage", "not a frame"].drop 2).filter
        isHashLine).map parse_frameinfo_from_backtrace) :=
  ⟨by decide, c3_bt_total_on_nonempty_lines _ (by decide)⟩

/-- C4: the template-collapsing pass rewrites each recorded top-level span to
`<...>` — a designator containing `Template<0, Other<1,2>>::Method<X>`
collapses to `Template<...>::Method<...>` — and on a full backtrace line the
trailing call-signature group collapses to `(...)` while source and line
number are still extracted correctly. -/
theorem c4_nested_template_collapse :
    clean_cpp_template_brackets_and_call_signature "Template<0, Other<1,2>>::Method<X>"
      = "Template<...>::Method<...>" ∧
    parse_frameinfo_from_backtrace
        "#3  0x0000aaaa in Template<0, Other<1,2>>::Method<X>(int, float) (a=1, b=2) at /path/file.h:154"
      = { function := "Template<...>::Method<...>(...)", source := "/path/file.h",
          linenum := 154, error := false } := by
  constructor
  · decide
  · decide

/-- C2 (code_bug): a probe response line `No symbol "x" in current context.`
is NOT classified valid by the code — the first alternative of the benign
regex, written with a backslash-newline inside a raw string, demands a
literal newline followed by 37 spaces, which a stripped response line never
contains — while the claim (and the spec, and visibly the author's intent)
says it must be.  The other two markers of the claim do behave as stated,
and the expression falls back to the unfiltered command with a
syntax-error warning. -/
theorem c2_no_symbol_response_is_rejected :
    validationAccepts ["No symbol \"x\" in current context."] = false ∧
    validationAccepts ["cannot subscript something of type int"] = true ∧
    validationAccepts ["$1 = false"] = true ∧
    (get_thread_list (some "$sym + 1") none
        (fun c => if c = validateCmd "$sym + 1"
          then ["No symbol \"sym\" in current context."] else ["1.1"])).filterOutcome
      = FilterOutcome.probeInvalid ∧
    (get_thread_list (some "$sym + 1") none
        (fun c => if c = validateCmd "$sym + 1"
          then ["No symbol \"sym\" in current context."] else ["1.1"])).cmd
      = defaultEnumCmd := by
  exact ⟨by decide, by decide, by decide, by decide, by decide⟩

/-- C7: when the frame-shape pattern does not match, the parser returns
exactly the placeholder record (never a fault — the function is total); when
it matches without a trailing `:<line>` part (absent digit group), the
`linenum` field is `0`. -/
theorem c7_parse_frameinfo_error_handling (s : String) :
    (frameMatch s = none →
      parse_frameinfo_from_backtrace s =
        { function := "Unknown", source := "??", linenum := 0, error := true }) ∧
    (∀ g : FrameGroups, frameMatch s = some g → g.g3 = none →
      (parse_frameinfo_from_backtrace s).linenum = 0) := by
  constructor
  · intro h
    simp only [parse_frameinfo_from_backtrace, h]
    decide
  · intro g hg h3
    simp only [parse_frameinfo_from_backtrace, hg, h3]

/-- C7 (witness): a non-matching line yields the placeholder record; a
matching `from`-form line with no line number yields `linenum = 0`. -/
theorem c7_parse_frameinfo_error_handling_witness :
    (frameMatch "no frame here" = none ∧
      parse_frameinfo_from_backtrace "no frame here" =
        { function := "Unknown", source := "??", linenum := 0, error := true }) ∧
    (frameMatch "#0  foo (x) from libc.so"
        = some (FrameGroups.mk "foo".data "libc.so".data none) ∧
      (parse_frameinfo_from_backtrace "#0  foo (x) from libc.so").linenum = 0) :=
  ⟨⟨by decide, (c7_parse_frameinfo_error_handling _).1 (by decide)⟩,
   ⟨by decide, (c7_parse_frameinfo_error_handling _).2
      (FrameGroups.mk "foo".data "libc.so".data none) (by decide) rfl⟩⟩

/-- Helper: the first three fields of the `get_thread_list` result are the
Stage-1/Stage-2 classification, unchanged by the enumeration and
max-threads phases. -/
theorem gtl_stage_fields (fe me : Option String) (chan : String → List String) :
    (get_thread_list fe me chan).probeSent = (gtlStage1 fe chan).1 ∧
    (get_thread_list fe me chan).cmd = (gtlStage1 fe chan).2.1 ∧
    (get_thread_list fe me chan).filterOutcome = (gtlStage1 fe chan).2.2 := by
  simp only [get_thread_list]
  rcases gtlStage1 fe chan with ⟨ps, cmd, fo⟩
  dsimp only
  refine ⟨?_, ?_, ?_⟩ <;> (repeat' split) <;> rfl

/-- Helper: a Stage-1 structural rejection (embedded newline / carriage
return, or deny-list hit) sends no probe, keeps the unfiltered command, and
classifies the expression invalid. -/
theorem gtlStage1_rejects (s : String) (chan : String → List String)
    (h1 : pyStrip s ≠ "")
    (h2 : containsNL (pyStrip s) = true ∨ dangerHit (pyStrip s) = true) :
    (gtlStage1 (some s) chan).1 = none ∧
    (gtlStage1 (some s) chan).2.1 = defaultEnumCmd ∧
    ((gtlStage1 (some s) chan).2.2 = FilterOutcome.rejectedNewline ∨
      (gtlStage1 (some s) chan).2.2 = FilterOutcome.rejectedDanger) := by
  have hs : s ≠ "" := by
    intro h
    apply h1
    rw [h]
    rfl
  by_cases hnl : containsNL (pyStrip s) = true
  · simp [gtlStage1, hs, h1, hnl]
  · have hd : dangerHit (pyStrip s) = true := h2.resolve_left hnl
    simp [gtlStage1, hs, h1, hnl, hd]

/-- C1: a filter expression with an embedded line break, or whose lowercased
text contains a deny-listed keyword, is rejected in Stage 1: no probe command
is sent through the Command Channel, the expression is classified invalid,
and enumeration proceeds with the unfiltered command. -/
theorem c1_stage1_rejection (s : String) (maxEnv : Option String)
    (chan : String → List String)
    (h1 : pyStrip s ≠ "")
    (h2 : containsNL (pyStrip s) = true ∨ dangerHit (pyStrip s) = true) :
    (get_thread_list (some s) maxEnv chan).probeSent = none ∧
    (get_thread_list (some s) maxEnv chan).cmd = defaultEnumCmd ∧
    ((get_thread_list (some s) maxEnv chan).filterOutcome = FilterOutcome.rejectedNewline ∨
      (get_thread_list (some s) maxEnv chan).filterOutcome = FilterOutcome.rejectedDanger) := by
  obtain ⟨hp, hc, hf⟩ := gtl_stage_fields (some s) maxEnv chan
  obtain ⟨r1, r2, r3⟩ := gtlStage1_rejects s chan h1 h2
  rw [hp, hc, hf]
  exact ⟨r1, r2, r3⟩

/-- C1 (witness): an expression with an embedded newline. -/
theorem c1_stage1_rejection_witness :
    (pyStrip "$a == 1\n$b" ≠ "" ∧
      (containsNL (pyStrip "$a == 1\n$b") = true ∨ dangerHit (pyStrip "$a == 1\n$b") = true)) ∧
    ((get_thread_list (some "$a == 1\n$b") none (fun _ => ["1.1"])).probeSent = none ∧
      (get_thread_list (some "$a == 1\n$b") none (fun _ => ["1.1"])).cmd = defaultEnumCmd ∧
      ((get_thread_list (some "$a == 1\n$b") none (fun _ => ["1.1"])).filterOutcome
          = FilterOutcome.rejectedNewline ∨
        (get_thread_list (some "$a == 1\n$b") none (fun _ => ["1.1"])).filterOutcome
          = FilterOutcome.rejectedDanger)) :=
  ⟨⟨by decide, by decide⟩, c1_stage1_rejection _ _ _ (by decide) (by decide)⟩

/-- Helper: a contiguous-substring occurrence makes `subOccurs` true. -/
theorem subOccurs_eq_true_of_infix (pat : List Char) (cs : List Char)
    (h : pat <:+: cs) : subOccurs pat cs = true := by
  induction cs with
  | nil =>
    have : pat = [] := List.eq_nil_of_infix_nil h
    subst this
    rfl
  | cons c rest ih =>
    rw [List.infix_cons_iff] at h
    cases h with
    | inl hp => simp [subOccurs, List.isPrefixOf_iff_prefix.mpr hp]
    | inr hi => simp [subOccurs, ih hi]

/-- C9: the deny-list check is a plain substring match on the lowercased
expression — any occurrence of a deny-listed keyword as a contiguous
substring (even inside a longer identifier) is rejected before any probe is
sent, and enumeration runs unfiltered (fail-closed). -/
theorem c9_denylist_substring_rejects (s : String) (maxEnv : Option String)
    (chan : String → List String)
    (h1 : pyStrip s ≠ "")
    (k : String) (hk : k ∈ danger_list)
    (hinf : k.data <:+: lowerChars (pyStrip s).data) :
    (get_thread_list (some s) maxEnv chan).probeSent = none ∧
    (get_thread_list (some s) maxEnv chan).cmd = defaultEnumCmd := by
  have hd : dangerHit (pyStrip s) = true := by
    unfold dangerHit
    rw [List.any_eq_true]
    exact ⟨k, hk, subOccurs_eq_true_of_infix _ _ hinf⟩
  obtain ⟨hp, hc, _⟩ := gtl_stage_fields (some s) maxEnv chan
  obtain ⟨r1, r2, _⟩ := gtlStage1_rejects s chan h1 (Or.inr hd)
  rw [hp, hc]
  exact ⟨r1, r2⟩

/-- C9 (witness): `"my_callback"` contains the keyword `"call"` inside a
longer identifier and is rejected before any probe. -/
theorem c9_denylist_substring_rejects_witness :
    (pyStrip "my_callback" ≠ "" ∧ ("call" : String) ∈ danger_list ∧
      "call".data <:+: lowerChars (pyStrip "my_callback").data) ∧
    ((get_thread_list (some "my_callback") none (fun _ => ["1.1"])).probeSent = none ∧
      (get_thread_list (some "my_callback") none (fun _ => ["1.1"])).cmd = defaultEnumCmd) :=
  ⟨⟨by decide, by decide, ⟨"my_".data, "back".data, by decide⟩⟩,
    c9_denylist_substring_rejects _ _ _ (by decide) "call" (by decide)
      ⟨"my_".data, "back".data, by decide⟩⟩

/-- Helper: a blank (all-whitespace) string is a `ValueError` for `int()`. -/
theorem pyIntParse_none_of_strip_empty (m : String) (h : pyStrip m = "") :
    pyIntParse m = none := by
  have hd : stripChars m.data = [] := congrArg String.data h
  simp [pyIntParse, hd]
  rfl

/-- C8: the max-threads configuration: a positive parse keeps exactly the
prefix of the enumerated thread-id list; a non-positive or unparsable value
leaves the list untruncated with a warning outcome, never an error. -/
theorem c8_max_threads_truncation (m : String) (chan : String → List String)
    (h0 : ¬ chan defaultEnumCmd = []) :
    (∀ n : Int, pyIntParse m = some n → 0 < n →
      (get_thread_list none (some m) chan).tids = (chan defaultEnumCmd).take n.toNat ∧
      (get_thread_list none (some m) chan).maxOutcome = MaxOutcome.truncated n.toNat) ∧
    (pyIntParse m = none →
      (get_thread_list none (some m) chan).tids = chan defaultEnumCmd ∧
      (pyStrip m ≠ "" →
        (get_thread_list none (some m) chan).maxOutcome = MaxOutcome.ignoredUnparsable)) ∧
    (∀ n : Int, pyIntParse m = some n → n ≤ 0 →
      (get_thread_list none (some m) chan).tids = chan defaultEnumCmd ∧
      (get_thread_list none (some m) chan).maxOutcome = MaxOutcome.ignoredNonPositive) := by
  have hstage : gtlStage1 none chan = (none, defaultEnumCmd, FilterOutcome.noFilter) := rfl
  refine ⟨?_, ?_, ?_⟩
  · intro n hn hpos
    have hms : ¬ pyStrip m = "" := fun he => by
      rw [pyIntParse_none_of_strip_empty m he] at hn
      cases hn
    have hm : ¬ m = "" := fun he => hms (by rw [he]; rfl)
    simp [get_thread_list, hstage, h0, hm, hms, hn, Int.not_le.mpr hpos]
  · intro hn
    constructor
    · by_cases hm : m = ""
      · simp [get_thread_list, hstage, h0, hm]
      · by_cases hms : pyStrip m = ""
        · simp [get_thread_list, hstage, h0, hm, hms]
        · simp [get_thread_list, hstage, h0, hm, hms, hn]
    · intro hms
      have hm : ¬ m = "" := fun he => hms (by rw [he]; rfl)
      simp [get_thread_list, hstage, h0, hm, hms, hn]
  · intro n hn hneg
    have hms : ¬ pyStrip m = "" := fun he => by
      rw [pyIntParse_none_of_strip_empty m he] at hn
      cases hn
    have hm : ¬ m = "" := fun he => hms (by rw [he]; rfl)
    simp [get_thread_list, hstage, h0, hm, hms, hn, hneg]

/-- C8 (witness): `"-3"` parses non-positive and leaves the list
untruncated with a warning outcome. -/
theorem c8_max_threads_truncation_witness :
    ¬ (fun _ : String => ["a", "b"]) defaultEnumCmd = [] ∧
    ((get_thread_list none (some "-3") (fun _ => ["a", "b"])).tids = ["a", "b"] ∧
      (get_thread_list none (some "-3") (fun _ => ["a", "b"])).maxOutcome
        = MaxOutcome.ignoredNonPositive) :=
  ⟨by decide,
    (c8_max_threads_truncation "-3" (fun _ => ["a", "b"]) (by decide)).2.2 (-3)
      (by decide) (by decide)⟩

/-- Helper: a set bit of `mask` is bounded by any exponent bounding `mask`. -/
theorem testBit_lt_of_lt_two_pow (mask w i : Nat) (h : mask < 2 ^ w)
    (hi : mask.testBit i = true) : i < w := by
  have h1 : 2 ^ i ≤ mask := Nat.testBit_implies_ge hi
  have h2 : 2 ^ i < 2 ^ w := lt_of_le_of_lt h1 h
  exact (Nat.pow_lt_pow_iff_right (by norm_num)).mp h2

/-- Helper: filtering `range` by a predicate false at and above `a` is
insensitive to extending the range beyond `a`. -/
theorem filter_range_eq_of_bound (f : Nat → Bool) (a n : Nat) (han : a ≤ n)
    (hf : ∀ i, f i = true → i < a) :
    (List.range n).filter f = (List.range a).filter f := by
  induction n with
  | zero =>
    have : a = 0 := Nat.le_zero.mp han
    subst this
    rfl
  | succ n ih =>
    rcases Nat.lt_or_ge a (n + 1) with hlt | hge
    · have h1 : a ≤ n := Nat.lt_succ_iff.mp hlt
      have hfn : f n = false := by
        cases hfn : f n
        · rfl
        · exact absurd (hf n hfn) (Nat.not_lt.mpr h1)
      rw [List.range_succ, List.filter_append, ih h1]
      simp [hfn]
    · have : a = n + 1 := Nat.le_antisymm han hge
      subst this
      rfl

/-- C5: for positive width and a mask whose set bits all lie below the width
(spec-modelled `expand`), the result is exactly the ascending list of set
bit positions of the mask, and `expand 0 0` is empty. -/
theorem c5_expand_ascending_set_bits (width mask : Nat) (_hw : 0 < width)
    (h : mask < 2 ^ width) :
    expand width mask = setBitsAscending mask ∧
    (expand width mask).Sorted (· < ·) ∧
    expand 0 0 = [] := by
  have hw' : ∀ i, mask.testBit i = true → i < width :=
    fun i hi => testBit_lt_of_lt_two_pow mask width i h hi
  have hm' : ∀ i, mask.testBit i = true → i < mask :=
    fun i hi => lt_of_lt_of_le (Nat.lt_two_pow i) (Nat.testBit_implies_ge hi)
  refine ⟨?_, ?_, rfl⟩
  · have e1 := filter_range_eq_of_bound (fun i => mask.testBit i) width
      (max width mask) (le_max_left _ _) hw'
    have e2 := filter_range_eq_of_bound (fun i => mask.testBit i) mask
      (max width mask) (le_max_right _ _) hm'
    unfold expand setBitsAscending
    rw [← e1, ← e2]
  · exact (List.pairwise_lt_range width).filter _

/-- C5 (witness): `expand 4 5 = [0, 2]`, the ascending set-bit list of `5`. -/
theorem c5_expand_ascending_set_bits_witness :
    (0 < 4 ∧ 5 < 2 ^ 4) ∧
    (expand 4 5 = setBitsAscending 5 ∧
      (expand 4 5).Sorted (· < ·) ∧
      expand 0 0 = []) :=
  ⟨by decide, c5_expand_ascending_set_bits 4 5 (by decide) (by decide)⟩

/-!
Development for C6.  The call-signature collapsing step is idempotent on
every input: the findall pattern's lookahead (`(?=[^()]*$)`) forces any
collected match to be followed by a paren-free tail, the replacement text
`(...)` is itself such a match, and replacing a pattern by itself is the
identity.  Template collapsing, by contrast, is not idempotent (see the C6
counterexample): replacing all occurrences of an earlier recorded span can
rewrite the interior of a later, nested span.
-/

/-- Replacing a pattern by itself is the identity. -/
theorem replaceAllF_self (p : List Char) : ∀ n s, replaceAllF p p n s = s := by
  intro n
  induction n with
  | zero => intro s; rfl
  | succ n ih =>
    intro s
    by_cases hp : p.isPrefixOf s
    · have hpre : p <+: s := List.isPrefixOf_iff_prefix.mp hp
      obtain ⟨t, ht⟩ := hpre
      have hdrop : s.drop p.length = t := by
        rw [← ht, List.drop_left]
      simp only [replaceAllF, if_pos hp, hdrop, ih t, ht]
    · simp only [replaceAllF, if_neg hp]
      cases s with
      | nil => rfl
      | cons c cs =>
        show c :: replaceAllF p p n cs = c :: cs
        rw [ih cs]

/-- `str.replace(pat, pat)` is the identity. -/
theorem replaceAll_self (s p : List Char) : replaceAll s p p = s := by
  unfold replaceAll
  by_cases hp : p = []
  · rw [if_pos hp]
  · rw [if_neg hp, replaceAllF_self]

/-- Characters of a replacement result come from the replacement text or the
original string. -/
theorem mem_replaceAllF (rep pat : List Char) :
    ∀ n s a, a ∈ replaceAllF rep pat n s → a ∈ rep ∨ a ∈ s := by
  intro n
  induction n with
  | zero => intro s a h; exact Or.inr h
  | succ n ih =>
    intro s a h
    by_cases hp : pat.isPrefixOf s
    · simp only [replaceAllF, if_pos hp] at h
      rcases List.mem_append.mp h with h1 | h1
      · exact Or.inl h1
      · rcases ih _ _ h1 with h2 | h2
        · exact Or.inl h2
        · exact Or.inr (List.mem_of_mem_drop h2)
    · simp only [replaceAllF, if_neg hp] at h
      cases s with
      | nil => exact Or.inr h
      | cons c cs =>
        rcases List.mem_cons.mp h with h1 | h1
        · exact Or.inr (h1 ▸ List.mem_cons_self c cs)
        · rcases ih _ _ h1 with h2 | h2
          · exact Or.inl h2
          · exact Or.inr (List.mem_cons_of_mem _ h2)

/-- If some character of the pattern never occurs in the string, replacement
is the identity. -/
theorem replaceAllF_no_occur (rep pat : List Char) (a : Char) (ha : a ∈ pat) :
    ∀ n s, a ∉ s → replaceAllF rep pat n s = s := by
  intro n
  induction n with
  | zero => intro s _; rfl
  | succ n ih =>
    intro s hs
    by_cases hp : pat.isPrefixOf s
    · exact absurd (List.IsPrefix.mem ha (List.isPrefixOf_iff_prefix.mp hp)) hs
    · simp only [replaceAllF, if_neg hp]
      cases s with
      | nil => rfl
      | cons c cs =>
        show c :: replaceAllF rep pat n cs = c :: cs
        rw [ih cs (fun h => hs (List.mem_cons_of_mem _ h))]

/-- Dropping the length of the `takeWhile` prefix is `dropWhile`. -/
theorem drop_length_takeWhile (p : Char → Bool) (l : List Char) :
    l.drop (l.takeWhile p).length = l.dropWhile p := by
  induction l with
  | nil => rfl
  | cons a l ih =>
    cases hp : p a
    · rw [List.takeWhile_cons_of_neg (by simp [hp]), List.dropWhile_cons_of_neg (by simp [hp])]
      rfl
    · rw [List.takeWhile_cons_of_pos (by simp [hp]), List.dropWhile_cons_of_pos (by simp [hp])]
      simpa using ih

/-- `takeWhile` over a satisfied block followed by a failing head. -/
theorem takeWhile_append_stop (p : Char → Bool) (mid : List Char) (b : Char)
    (v : List Char) (hmid : ∀ c ∈ mid, p c = true) (hb : p b = false) :
    (mid ++ b :: v).takeWhile p = mid := by
  induction mid with
  | nil =>
    simp only [List.nil_append]
    rw [List.takeWhile_cons_of_neg (by simp [hb])]
  | cons a mid ih =>
    have ha : p a = true := hmid a (List.mem_cons_self _ _)
    simp only [List.cons_append]
    rw [List.takeWhile_cons_of_pos (by simp [ha])]
    rw [ih (fun c hc => hmid c (List.mem_cons_of_mem _ hc))]

/-- `parenFree` unpacked. -/
theorem parenFree_iff (cs : List Char) :
    parenFree cs = true ↔ ∀ c ∈ cs, c ≠ '(' ∧ c ≠ ')' := by
  unfold parenFree
  rw [List.all_eq_true]
  constructor
  · intro h c hc
    have := h c hc
    simp only [Bool.not_eq_true', Bool.or_eq_false_iff, decide_eq_false_iff_not] at this
    exact this
  · intro h c hc
    have := h c hc
    simp only [Bool.not_eq_true', Bool.or_eq_false_iff, decide_eq_false_iff_not]
    exact this

/-- Elimination for a successful `sigGroup`: the input splits as the
nonempty paren-free run, the closing `)`, and the remainder. -/
theorem sigGroup_eq_some (rest mid r2 : List Char)
    (h : sigGroup rest = some (mid, r2)) :
    rest = mid ++ ')' :: r2 ∧ mid ≠ [] ∧ ∀ c ∈ mid, c ≠ '(' ∧ c ≠ ')' := by
  unfold sigGroup at h
  by_cases he : (rest.takeWhile (fun c => !(c = '(' || c = ')'))).isEmpty
  · rw [if_pos he] at h
    cases h
  · rw [if_neg he] at h
    rw [drop_length_takeWhile] at h
    split at h
    case _ r hdw =>
      injection h with h1
      injection h1 with h2 h3
      subst h2
      subst h3
      refine ⟨?_, ?_, ?_⟩
      · rw [← hdw, List.takeWhile_append_dropWhile]
      · intro hnil
        rw [hnil] at he
        exact he rfl
      · intro c hc
        have := List.mem_takeWhile_imp hc
        simp only [Bool.not_eq_true', Bool.or_eq_false_iff, decide_eq_false_iff_not] at this
        exact this
    case _ => cases h

/-- A string without `(` yields no call-signature matches. -/
theorem sigScanF_nil_of_no_lparen :
    ∀ n (cs : List Char), (∀ c ∈ cs, c ≠ '(') → sigScanF n cs = [] := by
  intro n
  induction n with
  | zero => intro cs _; rfl
  | succ n ih =>
    intro cs h
    cases cs with
    | nil => rfl
    | cons c rest =>
      have hc : ¬ c = '(' := h c (List.mem_cons_self _ _)
      simp only [sigScanF, if_neg hc]
      exact ih rest (fun x hx => h x (List.mem_cons_of_mem _ hx))

/-- Building a successful `sigGroup` from its parts. -/
theorem sigGroup_of_parts (mid v : List Char) (hmid : mid ≠ [])
    (hnp : ∀ c ∈ mid, c ≠ '(' ∧ c ≠ ')') :
    sigGroup (mid ++ ')' :: v) = some (mid, v) := by
  unfold sigGroup
  have htw : (mid ++ ')' :: v).takeWhile (fun c => !(c = '(' || c = ')')) = mid := by
    apply takeWhile_append_stop
    · intro c hc
      simp only [Bool.not_eq_true', Bool.or_eq_false_iff, decide_eq_false_iff_not]
      exact hnp c hc
    · simp
  have hne : mid.isEmpty = false := by
    cases mid with
    | nil => exact absurd rfl hmid
    | cons a l => rfl
  simp only [htw, hne, Bool.false_eq_true, if_false, List.drop_left]

/-- The last collected match of the call-signature scan determines a
decomposition of the input: a prefix, the matched group `( mid )` with a
nonempty paren-free interior, and a paren-free tail (the lookahead). -/
theorem sigScanF_last_decomp :
    ∀ n (cs : List Char) m, (sigScanF n cs).getLast? = some m →
    ∃ u mid v, cs = u ++ '(' :: (mid ++ ')' :: v) ∧ m = '(' :: (mid ++ [')']) ∧
      mid ≠ [] ∧ (∀ c ∈ mid, c ≠ '(' ∧ c ≠ ')') ∧ (∀ c ∈ v, c ≠ '(' ∧ c ≠ ')') := by
  intro n
  induction n with
  | zero => intro cs m h; cases h
  | succ n ih =>
    intro cs m h
    cases cs with
    | nil => cases h
    | cons c rest =>
      by_cases hc : c = '('
      · rw [sigScanF, if_pos hc] at h
        cases hg : sigGroup rest with
        | none =>
          rw [hg] at h
          obtain ⟨u, mid, v, h1, h2, h3, h4, h5⟩ := ih rest m h
          exact ⟨c :: u, mid, v, by rw [h1, List.cons_append], h2, h3, h4, h5⟩
        | some p =>
          obtain ⟨mid0, r20⟩ := p
          simp only [hg] at h
          by_cases hpf : parenFree r20 = true
          · rw [if_pos hpf] at h
            have hr20 : ∀ x ∈ r20, x ≠ '(' ∧ x ≠ ')' := (parenFree_iff r20).mp hpf
            have hscan : sigScanF n r20 = [] :=
              sigScanF_nil_of_no_lparen n r20 (fun x hx => (hr20 x hx).1)
            rw [hscan] at h
            have hm : m = '(' :: (mid0 ++ [')']) := by
              have := h
              simp only [List.getLast?_singleton, Option.some_inj] at this
              rw [← this]
              rw [List.cons_append]
            obtain ⟨hrest, hmid0, hnp0⟩ := sigGroup_eq_some rest mid0 r20 hg
            refine ⟨[], mid0, r20, ?_, hm, hmid0, hnp0, hr20⟩
            rw [List.nil_append, hrest, hc]
          · rw [if_neg hpf] at h
            obtain ⟨u, mid, v, h1, h2, h3, h4, h5⟩ := ih rest m h
            exact ⟨c :: u, mid, v, by rw [h1, List.cons_append], h2, h3, h4, h5⟩
      · rw [sigScanF, if_neg hc] at h
        obtain ⟨u, mid, v, h1, h2, h3, h4, h5⟩ := ih rest m h
        exact ⟨c :: u, mid, v, by rw [h1, List.cons_append], h2, h3, h4, h5⟩

/-- With any prefix `x`, a well-shaped group followed by a paren-free tail is
the one and only collected match: every earlier attempt fails its shape test
or its lookahead (the group's parentheses lie ahead of it). -/
theorem sigScanF_of_shape :
    ∀ (x : List Char) (n : Nat) (mid v : List Char),
      (x ++ '(' :: (mid ++ ')' :: v)).length ≤ n → mid ≠ [] →
      (∀ c ∈ mid, c ≠ '(' ∧ c ≠ ')') → (∀ c ∈ v, c ≠ '(' ∧ c ≠ ')') →
      sigScanF n (x ++ '(' :: (mid ++ ')' :: v)) = ['(' :: (mid ++ [')'])] := by
  intro x
  induction x with
  | nil =>
    intro n mid v hn hmid hnp hv
    rw [List.nil_append] at hn ⊢
    cases n with
    | zero => simp at hn
    | succ n =>
      rw [sigScanF, if_pos rfl]
      simp only [sigGroup_of_parts mid v hmid hnp]
      rw [if_pos ((parenFree_iff v).mpr hv),
        sigScanF_nil_of_no_lparen n v (fun x hx => (hv x hx).1)]
      rw [List.cons_append]
  | cons a x ih =>
    intro n mid v hn hmid hnp hv
    rw [List.cons_append] at hn ⊢
    cases n with
    | zero => simp at hn
    | succ n =>
      have hn' : (x ++ '(' :: (mid ++ ')' :: v)).length ≤ n := by
        simp only [List.length_cons] at hn
        omega
      by_cases ha : a = '('
      · rw [sigScanF, if_pos ha]
        cases hg : sigGroup (x ++ '(' :: (mid ++ ')' :: v)) with
        | none => exact ih n mid v hn' hmid hnp hv
        | some p =>
          obtain ⟨mid0, r20⟩ := p
          dsimp only
          by_cases hpf : parenFree r20 = true
          · exfalso
            obtain ⟨heq, _, hnp0⟩ := sigGroup_eq_some _ mid0 r20 hg
            have hmemL : ('(' : Char) ∈ x ++ '(' :: (mid ++ ')' :: v) := by
              rw [List.mem_append]
              exact Or.inr (List.mem_cons_self _ _)
            rw [heq] at hmemL
            rcases List.mem_append.mp hmemL with h1 | h1
            · exact (hnp0 _ h1).1 rfl
            · rcases List.mem_cons.mp h1 with h2 | h2
              · cases h2
              · exact ((parenFree_iff r20).mp hpf _ h2).1 rfl
          · rw [if_neg hpf]
            exact ih n mid v hn' hmid hnp hv
      · rw [sigScanF, if_neg ha]
        exact ih n mid v hn' hmid hnp hv

/-- A match text `( mid )` cannot occur straddling the boundary before its
own occurrence: its only `(` is its first character. -/
theorem match_no_straddle (mid : List Char) (hnp : ∀ c ∈ mid, c ≠ '(' ∧ c ≠ ')')
    (u v : List Char) (hu : u ≠ [])
    (hlt : u.length < ('(' :: (mid ++ [')'])).length)
    (hpre : ('(' :: (mid ++ [')'])) <+: (u ++ ('(' :: (mid ++ [')'])) ++ v)) :
    False := by
  have hu0 : 0 < u.length := List.length_pos.mpr hu
  have h1 := hpre.getElem (n := u.length) hlt
  have hlen3 : u.length < (u ++ ('(' :: (mid ++ [')']))).length := by
    simp only [List.length_append, List.length_cons]
    omega
  have hlen2 : u.length < (u ++ ('(' :: (mid ++ [')'])) ++ v).length := by
    simp only [List.length_append, List.length_cons]
    omega
  have h2 : (u ++ ('(' :: (mid ++ [')'])) ++ v)[u.length] = '(' := by
    rw [List.getElem_append_left hlen3,
      List.getElem_append_right (Nat.le_refl u.length)]
    simp only [Nat.sub_self, List.getElem_cons_zero]
  rw [h2] at h1
  have h3 : ∀ i (hi : i < ('(' :: (mid ++ [')'])).length), 0 < i →
      ('(' :: (mid ++ [')']))[i] ≠ '(' := by
    intro i hi hpos
    obtain ⟨j, rfl⟩ : ∃ j, i = j + 1 := ⟨i - 1, by omega⟩
    rw [List.getElem_cons_succ]
    rcases Nat.lt_or_ge j mid.length with hjm | hjm
    · rw [List.getElem_append_left hjm]
      exact (hnp _ (List.getElem_mem _)).1
    · rw [List.getElem_append_right hjm]
      simp only [List.getElem_singleton]
      intro hcc
      cases hcc
  exact h3 u.length hlt hu0 h1

/-- Replacing every occurrence of a match text by `(...)` ends with
`(...) ++ v`: the last occurrence (followed by the paren-free lookahead tail
`v`) is replaced in place, and no occurrence straddles into `v`. -/
theorem replaceAllF_tail_decomp (mid : List Char)
    (hnp : ∀ c ∈ mid, c ≠ '(' ∧ c ≠ ')') (v : List Char) (hv : ('(' : Char) ∉ v) :
    ∀ n u, (u ++ ('(' :: (mid ++ [')'])) ++ v).length ≤ n →
    ∃ w, replaceAllF "(...)".data ('(' :: (mid ++ [')'])) n
        (u ++ ('(' :: (mid ++ [')'])) ++ v) = w ++ "(...)".data ++ v := by
  intro n
  induction n with
  | zero =>
    intro u hlen
    exfalso
    simp only [List.length_append, List.length_cons, Nat.le_zero] at hlen
    omega
  | succ n ih =>
    intro u hlen
    by_cases hp : ('(' :: (mid ++ [')'])).isPrefixOf (u ++ ('(' :: (mid ++ [')'])) ++ v)
    · cases hu : u with
      | nil =>
        subst hu
        simp only [List.nil_append] at hp ⊢
        simp only [replaceAllF, if_pos hp]
        rw [List.drop_left]
        rw [replaceAllF_no_occur _ _ '(' (List.mem_cons_self _ _) n v hv]
        exact ⟨[], by rw [List.nil_append]⟩
      | cons a u2 =>
        subst hu
        have hpre : ('(' :: (mid ++ [')'])) <+: ((a :: u2) ++ ('(' :: (mid ++ [')'])) ++ v) :=
          List.isPrefixOf_iff_prefix.mp hp
        rcases Nat.lt_or_ge (a :: u2).length ('(' :: (mid ++ [')'])).length with hlt | hge
        · exact absurd hpre (fun hpre2 =>
            match_no_straddle mid hnp (a :: u2) v (List.cons_ne_nil a u2) hlt hpre2)
        · have hpre2 : ('(' :: (mid ++ [')'])) <+: (a :: u2) := by
            apply List.prefix_of_prefix_length_le hpre _ hge
            rw [List.append_assoc]
            exact List.prefix_append _ _
          obtain ⟨u3, hu3⟩ := hpre2
          simp only [replaceAllF, if_pos hp]
          have hs : (a :: u2) ++ ('(' :: (mid ++ [')'])) ++ v
              = ('(' :: (mid ++ [')'])) ++ (u3 ++ ('(' :: (mid ++ [')'])) ++ v) := by
            rw [← hu3]
            simp only [List.append_assoc]
          rw [hs, List.drop_left]
          have hlen3 : (a :: u2).length = ('(' :: (mid ++ [')'])).length + u3.length := by
            rw [← hu3, List.length_append]
          have hlen' : (u3 ++ ('(' :: (mid ++ [')'])) ++ v).length ≤ n := by
            simp only [List.length_append, List.length_cons] at hlen hlen3 ⊢
            omega
          obtain ⟨w, hw⟩ := ih u3 hlen'
          refine ⟨"(...)".data ++ w, ?_⟩
          rw [hw]
          simp only [List.append_assoc]
    · cases hu : u with
      | nil =>
        exfalso
        apply hp
        subst hu
        rw [List.nil_append]
        exact List.isPrefixOf_iff_prefix.mpr (List.prefix_append _ _)
      | cons a u2 =>
        subst hu
        simp only [List.cons_append] at hp ⊢
        simp only [replaceAllF, if_neg hp]
        have hlen' : (u2 ++ ('(' :: (mid ++ [')'])) ++ v).length ≤ n := by
          simp only [List.cons_append, List.length_cons] at hlen
          simp only [List.length_append]
          simp only [List.length_append] at hlen
          omega
        obtain ⟨w, hw⟩ := ih u2 hlen'
        refine ⟨a :: w, ?_⟩
        simp only [List.cons_append, List.append_assoc] at hw ⊢
        rw [hw]

/-- The call-signature collapsing step (`sigApply`) is idempotent on every
input: the lookahead of the findall pattern forces the collected match to be
the unique group with a paren-free tail, its replacement puts `(...)` in
that position, and the second pass then replaces `(...)` by itself. -/
theorem sigApply_idem (cs : List Char) : sigApply (sigApply cs) = sigApply cs := by
  cases h : (sigMatches cs).getLast? with
  | none =>
    have h1 : sigApply cs = cs := by
      unfold sigApply
      rw [h]
    rw [h1]
    exact h1
  | some m =>
    obtain ⟨u, mid, v, hcs, hmEq, hmid, hnpm, hnpv⟩ :=
      sigScanF_last_decomp cs.length cs m h
    subst hmEq
    have h1 : sigApply cs = replaceAll cs ('(' :: (mid ++ [')'])) "(...)".data := by
      unfold sigApply
      rw [h]
    have hmne : ('(' :: (mid ++ [')'])) ≠ ([] : List Char) := List.cons_ne_nil _ _
    have hvnl : ('(' : Char) ∉ v := fun hx => (hnpv _ hx).1 rfl
    have hshape : cs = u ++ ('(' :: (mid ++ [')'])) ++ v := by
      rw [hcs]
      simp [List.append_assoc]
    have hlenEq : (u ++ ('(' :: (mid ++ [')'])) ++ v).length ≤ cs.length :=
      le_of_eq (congrArg List.length hshape.symm)
    obtain ⟨w, hw⟩ := replaceAllF_tail_decomp mid hnpm v hvnl cs.length u hlenEq
    rw [← hshape] at hw
    have h2 : sigApply cs = w ++ "(...)".data ++ v := by
      rw [h1]
      unfold replaceAll
      rw [if_neg hmne]
      exact hw
    have h3 : sigMatches (w ++ "(...)".data ++ v) = ["(...)".data] := by
      have hshape2 : w ++ "(...)".data ++ v = w ++ '(' :: ("...".data ++ ')' :: v) := by
        rw [List.append_assoc]
        congr 1
      rw [hshape2]
      unfold sigMatches
      rw [sigScanF_of_shape w _ "...".data v (Nat.le_refl _) (by decide) (by decide) hnpv]
      rfl
    rw [h2]
    unfold sigApply
    rw [h3]
    simp only [List.getLast?_singleton]
    exact replaceAll_self _ _

/-- Without `<` the template scan records nothing. -/
theorem scanTb_nil_of_no_lt :
    ∀ (cs : List Char) idx bg cnt, (∀ c ∈ cs, c ≠ '<') →
      scanTb cs idx false bg cnt = [] := by
  intro cs
  induction cs with
  | nil => intro idx bg cnt _; rfl
  | cons c rest ih =>
    intro idx bg cnt h
    have hc : ¬ c = '<' := h c (List.mem_cons_self _ _)
    rw [scanTb, if_neg (fun hx => hc hx.1), if_neg (fun hx => hc hx.1),
      if_neg (fun hx => Bool.false_ne_true hx.2.1),
      if_neg (fun hx => Bool.false_ne_true hx.2.1)]
    exact ih _ _ _ (fun x hx => h x (List.mem_cons_of_mem _ hx))

/-- Without `<` the template phase is the identity. -/
theorem tmplApply_of_no_lt (cs : List Char) (h : ∀ c ∈ cs, c ≠ '<') :
    tmplApply cs = cs := by
  unfold tmplApply templateSpans
  rw [scanTb_nil_of_no_lt cs 0 0 0 h]
  rfl

/-- Characters of the signature phase come from the input or from `(...)`. -/
theorem mem_sigApply (cs : List Char) (a : Char) (hmem : a ∈ sigApply cs) :
    a ∈ cs ∨ a ∈ "(...)".data := by
  unfold sigApply at hmem
  cases h : (sigMatches cs).getLast? with
  | none =>
    rw [h] at hmem
    exact Or.inl hmem
  | some m =>
    rw [h] at hmem
    unfold replaceAll at hmem
    dsimp only at hmem
    by_cases hm : m = []
    · rw [if_pos hm] at hmem
      exact Or.inl hmem
    · rw [if_neg hm] at hmem
      rcases mem_replaceAllF _ _ _ _ _ hmem with h1 | h1
      · exact Or.inr h1
      · exact Or.inl h1

/-- C6 (counterexample): the function is not idempotent.  On `"<a><<a>>"`
the first pass records the spans `<a>` and `<<a>>`; replacing all
occurrences of `<a>` rewrites the interior of the second span, so `<<a>>`
is no longer found and the result is `<...><<...>>`; a second application
collapses the remaining outer span to `<...><...>`. -/
theorem c6_not_idempotent_counterexample :
    clean_cpp_template_brackets_and_call_signature
        (clean_cpp_template_brackets_and_call_signature "<a><<a>>")
      ≠ clean_cpp_template_brackets_and_call_signature "<a><<a>>" := by decide

/-- C6 (amended): on inputs free of angle brackets — where the template
phase records no span — the function is idempotent: the call-signature
collapsing step is idempotent on every input, and its output introduces no
`<`. -/
theorem c6_idempotent_on_angle_free (s : String) (h : ∀ c ∈ s.data, c ≠ '<') :
    clean_cpp_template_brackets_and_call_signature
        (clean_cpp_template_brackets_and_call_signature s)
      = clean_cpp_template_brackets_and_call_signature s := by
  unfold clean_cpp_template_brackets_and_call_signature
  rw [tmplApply_of_no_lt s.data h]
  have h2 : ∀ c ∈ sigApply s.data, c ≠ '<' := by
    intro c hc
    rcases mem_sigApply _ _ hc with h1 | h1
    · exact h c h1
    · intro he
      rw [he] at h1
      exact absurd h1 (by decide)
  show String.mk (sigApply (tmplApply (sigApply s.data))) = String.mk (sigApply s.data)
  rw [tmplApply_of_no_lt _ h2, sigApply_idem]

/-- C6 (witness): a template-free designator with a call signature. -/
theorem c6_idempotent_on_angle_free_witness :
    (∀ c ∈ ("ns::f(int, float) const" : String).data, c ≠ '<') ∧
    clean_cpp_template_brackets_and_call_signature
        (clean_cpp_template_brackets_and_call_signature "ns::f(int, float) const")
      = clean_cpp_template_brackets_and_call_signature "ns::f(int, float) const" :=
  ⟨by decide, c6_idempotent_on_angle_free _ (by decide)⟩

/-!  Development for C10: behaviour of the template scan on unclosed `<`. -/

/-- Every pair recorded by the template scan was recorded at a `>` character:
`b < e`, and `e` is the index (relative to the scan offset) of a `>` in the
remaining input.  The invariant `found = true → bg < idx` holds at every call
site. -/
theorem scanTb_record_spec :
    ∀ (cs : List Char) (idx : Nat) (found : Bool) (bg cnt : Nat),
      (found = true → bg < idx) →
      ∀ b e, (b, e) ∈ scanTb cs idx found bg cnt →
      b < e ∧ ∃ k, ∃ hk : k < cs.length, e = idx + k ∧ cs[k] = '>' := by
  intro cs
  induction cs with
  | nil => intro idx found bg cnt _ b e h; cases h
  | cons c rest ih =>
    intro idx found bg cnt hinv b e h
    rw [scanTb] at h
    split at h
    next =>
      obtain ⟨hbe, k, hk, hke, hkc⟩ :=
        ih (idx + 1) true idx 1 (fun _ => Nat.lt_succ_self idx) b e h
      refine ⟨hbe, k + 1, by simpa using Nat.succ_lt_succ hk, by omega, ?_⟩
      rw [List.getElem_cons_succ]
      exact hkc
    next =>
      split at h
      next hcond =>
        obtain ⟨hbe, k, hk, hke, hkc⟩ := ih (idx + 1) true bg (cnt + 1)
          (fun _ => Nat.lt_succ_of_lt (hinv hcond.2)) b e h
        refine ⟨hbe, k + 1, by simpa using Nat.succ_lt_succ hk, by omega, ?_⟩
        rw [List.getElem_cons_succ]
        exact hkc
      next =>
        split at h
        next hcond =>
          obtain ⟨hbe, k, hk, hke, hkc⟩ := ih (idx + 1) true bg (cnt - 1)
            (fun _ => Nat.lt_succ_of_lt (hinv hcond.2.1)) b e h
          refine ⟨hbe, k + 1, by simpa using Nat.succ_lt_succ hk, by omega, ?_⟩
          rw [List.getElem_cons_succ]
          exact hkc
        next =>
          split at h
          next hcond =>
            rcases List.mem_cons.mp h with h1 | h1
            · have hb : b = bg := congrArg Prod.fst h1
              have he : e = idx := congrArg Prod.snd h1
              subst hb
              subst he
              refine ⟨hinv hcond.2.1, 0, by simp, by omega, ?_⟩
              simpa using hcond.1
            · obtain ⟨hbe, k, hk, hke, hkc⟩ := ih (idx + 1) false bg (cnt - 1)
                (fun hf => absurd hf Bool.false_ne_true) b e h1
              refine ⟨hbe, k + 1, by simpa using Nat.succ_lt_succ hk, by omega, ?_⟩
              rw [List.getElem_cons_succ]
              exact hkc
          next =>
            obtain ⟨hbe, k, hk, hke, hkc⟩ := ih (idx + 1) found bg cnt
              (fun hf => Nat.lt_succ_of_lt (hinv hf)) b e h
            refine ⟨hbe, k + 1, by simpa using Nat.succ_lt_succ hk, by omega, ?_⟩
            rw [List.getElem_cons_succ]
            exact hkc

/-- Every recorded template-span text ends with `>`. -/
theorem templateSpans_end_close (cs sub : List Char)
    (hsub : sub ∈ templateSpans cs) : ∃ sub0, sub = sub0 ++ ['>'] := by
  unfold templateSpans at hsub
  rw [List.mem_map] at hsub
  obtain ⟨⟨b, e⟩, hmem, hsubeq⟩ := hsub
  obtain ⟨hbe, k, hk, hke, hkc⟩ :=
    scanTb_record_spec cs 0 false 0 0 (fun hf => absurd hf Bool.false_ne_true) b e hmem
  have hek : e = k := by omega
  subst hek
  dsimp only at hsubeq
  subst hsubeq
  have hlen : (List.take (e + 1 - b) (List.drop b cs)).length = e + 1 - b := by
    rw [List.length_take, List.length_drop]
    omega
  have hne : List.take (e + 1 - b) (List.drop b cs) ≠ [] := by
    intro hnil
    rw [hnil] at hlen
    simp at hlen
    omega
  refine ⟨(List.take (e + 1 - b) (List.drop b cs)).dropLast, ?_⟩
  conv_lhs => rw [← List.dropLast_append_getLast hne]
  congr 1
  have hgen : ∀ (i : Nat) (hi : i < cs.length), i = e → cs[i] = '>' := by
    intro i hi hie
    subst hie
    exact hkc
  rw [List.getLast_eq_getElem, List.getElem_take, List.getElem_drop]
  rw [hgen _ _ (by rw [hlen]; omega)]

/-- Replacing a pattern that ends in `>` never touches a `>`-free suffix:
no occurrence can straddle into the suffix, because the occurrence's last
character would be a `>` inside it. -/
theorem replaceAllF_suffix_untouched (pat0 rep q : List Char)
    (hq : ('>' : Char) ∉ q) :
    ∀ n p, ∃ p2, replaceAllF rep (pat0 ++ ['>']) n (p ++ q) = p2 ++ q := by
  intro n
  induction n with
  | zero => intro p; exact ⟨p, rfl⟩
  | succ n ih =>
    intro p
    cases p with
    | nil =>
      exact ⟨[], replaceAllF_no_occur rep _ '>' (by simp) (n + 1) q hq⟩
    | cons a p1 =>
      by_cases hp : (pat0 ++ ['>']).isPrefixOf ((a :: p1) ++ q)
      · have hpre := List.isPrefixOf_iff_prefix.mp hp
        rcases Nat.lt_or_ge (a :: p1).length (pat0 ++ ['>']).length with hlt | hge
        · exfalso
          have hidx : pat0.length < (pat0 ++ ['>']).length := by
            simp [List.length_append]
          have h1 := hpre.getElem (n := pat0.length) hidx
          have h2 : (pat0 ++ ['>'])[pat0.length] = '>' := by
            rw [List.getElem_append_right (Nat.le_refl _)]
            simp
          rw [h2] at h1
          have hge2 : (a :: p1).length ≤ pat0.length := by
            simp only [List.length_append, List.length_cons, List.length_nil] at hlt ⊢
            omega
          rw [List.getElem_append_right hge2] at h1
          exact hq (h1 ▸ List.getElem_mem _)
        · have hpre2 : (pat0 ++ ['>']) <+: (a :: p1) := by
            apply List.prefix_of_prefix_length_le hpre _ hge
            exact List.prefix_append _ _
          obtain ⟨p3, hp3⟩ := hpre2
          simp only [replaceAllF, if_pos hp]
          rw [show ((a :: p1) ++ q) = (pat0 ++ ['>']) ++ (p3 ++ q) by
            rw [← hp3, List.append_assoc]]
          rw [List.drop_left]
          obtain ⟨p2, hp2⟩ := ih p3
          refine ⟨rep ++ p2, ?_⟩
          rw [hp2, List.append_assoc]
      · simp only [replaceAllF, if_neg hp]
        obtain ⟨p2, hp2⟩ := ih p1
        refine ⟨a :: p2, ?_⟩
        show a :: replaceAllF rep (pat0 ++ ['>']) n (p1 ++ q) = (a :: p2) ++ q
        rw [hp2]
        rfl

/-- Folding span replacements over a string keeps a `>`-free suffix intact
when every span text ends with `>`. -/
theorem foldl_replaceAll_suffix (tm : List Char) :
    ∀ (spans : List (List Char)), (∀ sub ∈ spans, ∃ sub0, sub = sub0 ++ ['>']) →
    ∀ (q : List Char), ('>' : Char) ∉ q → ∀ p,
    ∃ p2, spans.foldl (fun acc sub => replaceAll acc sub tm) (p ++ q) = p2 ++ q := by
  intro spans
  induction spans with
  | nil => intro _ q _ p; exact ⟨p, rfl⟩
  | cons sub rest ih =>
    intro hshape q hq p
    obtain ⟨sub0, hsub0⟩ := hshape sub (List.mem_cons_self _ _)
    have hne : sub ≠ [] := by
      rw [hsub0]
      simp
    rw [List.foldl_cons]
    have hstep : ∃ p2, replaceAll (p ++ q) sub tm = p2 ++ q := by
      unfold replaceAll
      rw [if_neg hne, hsub0]
      exact replaceAllF_suffix_untouched sub0 tm q hq _ p
    obtain ⟨p2, hp2⟩ := hstep
    rw [hp2]
    exact ih (fun s hs => hshape s (List.mem_cons_of_mem _ hs)) q hq p2

/-- C10 (counterexample): on `"<a>x< <a>"` the `<` at index 4 is unclosed
(no matching `>` at its nesting level), so per the claim the angle-bracket
characters of the unclosed region `"< <a>"` should be left unchanged; but
replacing all occurrences of the recorded span `<a>` rewrites the `<` and `>`
inside that region, producing `"<...>x< <...>"` instead of `"<...>x< <a>"`. -/
theorem c10_unclosed_region_rewritten :
    clean_cpp_template_brackets_and_call_signature "<a>x< <a>" = "<...>x< <...>" ∧
    clean_cpp_template_brackets_and_call_signature "<a>x< <a>" ≠ "<...>x< <a>" := by
  constructor
  · decide
  · decide

/-- C10 (amended): the scan records no span for an unclosed region and the
function is total; when the region after the unclosed `<` contains no `>` at
all (e.g. a trailing `operator<<` designator), every recorded span ends
strictly before it and the whole region survives as an unchanged suffix of
the template phase; and a `>` outside any open span records nothing (the
template phase is the identity on `<`-free inputs).  In general — when the
unclosed region does contain a `>`, or a parenthesized group spans the
unclosed `<` — later replacement passes may rewrite the region (see the
counterexample). -/
theorem c10_unclosed_bracket_handling (x t : List Char) (ht : ('>' : Char) ∉ t) :
    (∀ b e, (b, e) ∈ scanTb (x ++ '<' :: t) 0 false 0 0 → b < e ∧ e < x.length) ∧
    (∃ y, tmplApply (x ++ '<' :: t) = y ++ '<' :: t) ∧
    (∀ z : List Char, (∀ c ∈ z, c ≠ '<') → tmplApply z = z) := by
  have hq : ('>' : Char) ∉ '<' :: t := by
    intro hmem
    rcases List.mem_cons.mp hmem with h1 | h1
    · cases h1
    · exact ht h1
  refine ⟨?_, ?_, fun z hz => tmplApply_of_no_lt z hz⟩
  · intro b e hmem
    obtain ⟨hbe, k, hk, hke, hkc⟩ :=
      scanTb_record_spec (x ++ '<' :: t) 0 false 0 0
        (fun hf => absurd hf Bool.false_ne_true) b e hmem
    have hek : e = k := by omega
    subst hek
    refine ⟨hbe, ?_⟩
    by_contra hge
    push_neg at hge
    rw [List.getElem_append_right hge] at hkc
    exact hq (hkc ▸ List.getElem_mem _)
  · have := foldl_replaceAll_suffix "<...>".data (templateSpans (x ++ '<' :: t))
      (fun sub hsub => templateSpans_end_close _ sub hsub) ('<' :: t) hq x
    obtain ⟨y, hy⟩ := this
    exact ⟨y, hy⟩

/-- C10 (witness): `"operator<< (x"` — an unclosed trailing region with no
`>` after the unclosed `<`; the template scan records nothing in it and the
region survives unchanged. -/
theorem c10_unclosed_bracket_handling_witness :
    ('>' : Char) ∉ ("< (x" : String).data ∧
    ((∀ b e, (b, e) ∈ scanTb ("operator".data ++ '<' :: ("< (x" : String).data) 0 false 0 0 →
        b < e ∧ e < ("operator" : String).data.length) ∧
      (∃ y, tmplApply ("operator".data ++ '<' :: ("< (x" : String).data)
          = y ++ '<' :: ("< (x" : String).data) ∧
      (∀ z : List Char, (∀ c ∈ z, c ≠ '<') → tmplApply z = z)) :=
  ⟨by decide, c10_unclosed_bracket_handling "operator".data "< (x".data (by decide)⟩

end OneAPIGdb
